import Mathlib

/-!
Shallow embedding of the multi-corpus retrieval-and-fusion engine of the
Bank-Policies-Chat-LLM repository.

The embedded code lives in:
  * `backend/api/retrieval.py` — `RetrievalEngine` (`_search_single_corpus`,
    `_merge_neighbors`, `retrieve`, `available_banks`);
  * `backend/api/chat_logic.py` — `build_sources_for_llm`;
  * `config/settings.py` — the retrieval configuration constants.

Modelling conventions:
  * A corpus registry (`RetrievalEngine._corpora`, a Python dict populated in
    insertion order with key = folder name = corpus name) is a `List Corpus`
    in the same order; `dict.get` / iteration become `List.find?` / traversal.
  * The FAISS call `corpus.index.search(query_emb, k)` is external library
    code; it is abstracted as an oracle `nn : Corpus → Nat → List (ℚ × Int)`
    giving the zipped `(distance, index)` rows for the query at hand, with
    `-1` as the library's sentinel index.  Distances and scores are modelled
    as rationals.
  * Metadata records always carry `source_file` and `chunk_id`: the ingestion
    step (`backend/ingest/build_indexes.py`) writes both keys for every chunk,
    so the `dict.get` defaults in the retrieval code are never taken.
  * Python's `list.sort(key=…, reverse=True)` is a stable descending sort by
    key; it is modelled by the stable insertion sort `sortByDesc` below.
  * Python's `str.lower` is modelled by `pyLower` (ASCII case folding),
    matching the ASCII corpus names and hints the system uses.
-/

/-- `config/settings.py`: `TOP_K_PER_INDEX = 5`. -/
def TOP_K_PER_INDEX : Nat := 5

/-- `config/settings.py`: `MAX_BANKS_WHEN_NO_BANK_SPECIFIED = 5`. -/
def MAX_BANKS_WHEN_NO_BANK_SPECIFIED : Nat := 5

/-- One metadata record, as written by `build_indexes.py`
(`{"source_file": filename, "chunk_id": i, …}`). -/
structure ChunkMeta where
  source_file : String
  chunk_id : Int
deriving DecidableEq

instance : Inhabited ChunkMeta := ⟨⟨"unknown", 0⟩⟩

/-- `CorpusIndex` from `retrieval.py` (the FAISS index itself is abstracted
into the search oracle, see module docstring). -/
structure Corpus where
  name : String
  chunks : List String
  metadatas : List ChunkMeta
deriving DecidableEq

/-- The result dict built in `RetrievalEngine._search_single_corpus`. -/
structure Record where
  score : ℚ
  bank : String
  document_name : String
  chunk_id : Int
  raw_chunk : String
  merged_text : String
deriving DecidableEq

/-- Python `str.lower` (ASCII case folding). -/
def pyLower (s : String) : String := String.mk (s.data.map Char.toLower)

/-- The merge condition of `_merge_neighbors` for the previous array
position: same source file, and sequence index exactly one less than the
current chunk's. -/
def prev_adjacent (corpus : Corpus) (idx : Nat) : Prop :=
  (corpus.metadatas.getD (idx - 1) default).source_file =
      (corpus.metadatas.getD idx default).source_file ∧
    (corpus.metadatas.getD (idx - 1) default).chunk_id =
      (corpus.metadatas.getD idx default).chunk_id - 1

/-- The merge condition of `_merge_neighbors` for the next array position:
same source file, and sequence index exactly one more than the current
chunk's. -/
def next_adjacent (corpus : Corpus) (idx : Nat) : Prop :=
  (corpus.metadatas.getD (idx + 1) default).source_file =
      (corpus.metadatas.getD idx default).source_file ∧
    (corpus.metadatas.getD (idx + 1) default).chunk_id =
      (corpus.metadatas.getD idx default).chunk_id + 1

instance (corpus : Corpus) (idx : Nat) : Decidable (prev_adjacent corpus idx) :=
  inferInstanceAs (Decidable (_ ∧ _))

instance (corpus : Corpus) (idx : Nat) : Decidable (next_adjacent corpus idx) :=
  inferInstanceAs (Decidable (_ ∧ _))

/-- `RetrievalEngine._merge_neighbors`: merge the chunk at array position
`idx` with its previous/next array neighbor when that neighbor is from the
same source file and sequentially adjacent, joining with `"\n"`. -/
def merge_neighbors (corpus : Corpus) (idx : Nat) : String :=
  let prevPart : List String :=
    if 1 ≤ idx then
      if prev_adjacent corpus idx then [corpus.chunks.getD (idx - 1) ""]
      else []
    else []
  let nextPart : List String :=
    if idx + 1 < corpus.chunks.length then
      if next_adjacent corpus idx then [corpus.chunks.getD (idx + 1) ""]
      else []
    else []
  String.intercalate "\n" (prevPart ++ [corpus.chunks.getD idx ""] ++ nextPart)

/-- `score = float(1 / (1 + dist))` from `_search_single_corpus`. -/
def recordScore (dist : ℚ) : ℚ := 1 / (1 + dist)

/-- The record built for one valid `(dist, idx)` pair in
`_search_single_corpus`. -/
def mkRecord (corpus : Corpus) (dist : ℚ) (idx : Int) : Record :=
  let i := idx.toNat
  let meta := corpus.metadatas.getD i default
  { score := recordScore dist
    bank := corpus.name
    document_name := meta.source_file
    chunk_id := meta.chunk_id
    raw_chunk := corpus.chunks.getD i ""
    merged_text := merge_neighbors corpus i }

/-- `RetrievalEngine._search_single_corpus`: one record per returned
`(dist, idx)` pair, skipping the sentinel `idx == -1`.  `searchResult` is the
zipped `(distances[0], indices[0])` row returned by the index. -/
def search_single_corpus (corpus : Corpus) (searchResult : List (ℚ × Int)) :
    List Record :=
  searchResult.filterMap fun p =>
    if p.2 = -1 then none else some (mkRecord corpus p.1 p.2)

/-- `RetrievalEngine.available_banks`: every corpus name except `"common"`
(case-insensitively). -/
def available_banks (corpora : List Corpus) : List String :=
  (corpora.map Corpus.name).filter fun n => decide (pyLower n ≠ "common")

/-- Stable insertion (descending by `key`): the new element goes before the
first strictly smaller key, after any equal key already present.  Together
with `sortByDesc` this models Python's stable
`list.sort(key=…, reverse=True)`. -/
def insertDesc {α : Type} (key : α → ℚ) (a : α) : List α → List α
  | [] => [a]
  | b :: bs => if key b ≤ key a then a :: b :: bs else b :: insertDesc key a bs

/-- Stable descending sort by `key` (insertion sort). -/
def sortByDesc {α : Type} (key : α → ℚ) : List α → List α
  | [] => []
  | a :: l => insertDesc key a (sortByDesc key l)

/-- `all_results.sort(key=lambda r: r["score"], reverse=True)`. -/
def sortByScoreDesc (rs : List Record) : List Record :=
  sortByDesc Record.score rs

/-- Helper for `firstOccs`: keep the elements not yet seen, remembering the
seen ones. -/
def firstOccsAux (seen : List String) : List String → List String
  | [] => []
  | x :: xs =>
    if x ∈ seen then firstOccsAux seen xs
    else x :: firstOccsAux (x :: seen) xs

/-- First-occurrence deduplication: the distinct elements of a list in order
of first appearance.  This is the key order of a Python dict populated with
`setdefault` while traversing the list. -/
def firstOccs (l : List String) : List String := firstOccsAux [] l

/-- `common_results` in `retrieve`: records whose bank is the shared corpus. -/
def common_results (rs : List Record) : List Record :=
  rs.filter fun r => decide (pyLower r.bank = "common")

/-- `other_results` in `retrieve`: records from scoped (non-shared) corpora. -/
def other_results (rs : List Record) : List Record :=
  rs.filter fun r => decide (pyLower r.bank ≠ "common")

/-- The per-bank group of `bank_to_results` (records kept in list order). -/
def bank_group (rs : List Record) (b : String) : List Record :=
  rs.filter fun r => decide (r.bank = b)

/-- `max(r["score"] for r in rs)` (groups are never empty, so the default is
never taken). -/
def best_score (rs : List Record) : ℚ :=
  ((rs.map Record.score).max?).getD 0

/-- The keys of `bank_to_results` in insertion order (first appearance of
each bank in `rs`). -/
def bank_names (rs : List Record) : List String :=
  firstOccs (rs.map Record.bank)

/-- `selected_banks` in `retrieve`: rank banks by their best score
(stable, descending) and keep the first
`MAX_BANKS_WHEN_NO_BANK_SPECIFIED`. -/
def selected_banks (rs : List Record) : List String :=
  let bank_scores := (bank_names rs).map fun b => (b, best_score (bank_group rs b))
  ((sortByDesc Prod.snd bank_scores).take MAX_BANKS_WHEN_NO_BANK_SPECIFIED).map
    Prod.fst

/-- `filtered_results` in the unhinted branch of `retrieve`, built from the
already sorted working set: top `top_k` shared records, then the top `top_k`
records of each selected bank. -/
def assemble_unhinted (sorted : List Record) (top_k : Nat) : List Record :=
  (common_results sorted).take top_k ++
    (selected_banks (other_results sorted)).flatMap fun b =>
      (bank_group (other_results sorted) b).take top_k

/-- `self._corpora.get("common")`: exact-key lookup of the shared corpus. -/
def lookup_common (corpora : List Corpus) : Option Corpus :=
  corpora.find? fun c => decide (c.name = "common")

/-- The hint-resolution loop in `retrieve`: first corpus whose lowercased
name equals the lowercased hint. -/
def resolve_bank (corpora : List Corpus) (hint : String) : Option Corpus :=
  corpora.find? fun c => decide (pyLower c.name = pyLower hint)

/-- Python's `if bank:`—a hint counts as supplied only when it is a
non-empty string. -/
def is_hinted (bank : Option String) : Bool :=
  match bank with
  | some b => decide (b ≠ "")
  | none => false

/-- Corpus selection in `retrieve`: hinted ⇒ the resolved bank corpus (if
any) followed by the shared corpus (if any); unhinted ⇒ the shared corpus (if
any) followed by every corpus whose lowercased name is not `"common"`, in
registry order. -/
def corpora_to_search (corpora : List Corpus) (bank : Option String) :
    List Corpus :=
  if is_hinted bank then
    (resolve_bank corpora ((bank.getD "")) ).toList ++
      (lookup_common corpora).toList
  else
    (lookup_common corpora).toList ++
      corpora.filter fun c => decide (pyLower c.name ≠ "common")

/-- The concatenated working set of `retrieve` (`all_results` before
sorting). -/
def all_results (corpora : List Corpus) (nn : Corpus → Nat → List (ℚ × Int))
    (bank : Option String) (top_k : Nat) : List Record :=
  (corpora_to_search corpora bank).flatMap fun c =>
    search_single_corpus c (nn c top_k)

/-- `RetrievalEngine.retrieve`.  `nn` abstracts the per-corpus FAISS search
for the encoded query (see module docstring); `top_k_opt = none` is Python's
`top_k_per_index=None` default. -/
def retrieve (corpora : List Corpus) (nn : Corpus → Nat → List (ℚ × Int))
    (bank : Option String) (top_k_opt : Option Nat) : List Record :=
  let top_k := top_k_opt.getD TOP_K_PER_INDEX
  let sorted := sortByScoreDesc (all_results corpora nn bank top_k)
  if is_hinted bank then
    sorted.take (top_k * (corpora_to_search corpora bank).length)
  else
    sortByScoreDesc (assemble_unhinted sorted top_k)

/-- `SourceItem` / the dict built per key in `build_sources_for_llm`. -/
structure SourceItem where
  bank : String
  document_name : String
  snippet : String
deriving DecidableEq

/-- The whitespace characters stripped by Python's `str.strip()` (ASCII
space, tab, newline, carriage return, vertical tab, form feed). -/
def pyIsSpace (c : Char) : Bool :=
  decide (c.toNat = 32) || decide (c.toNat = 9) || decide (c.toNat = 10) ||
    decide (c.toNat = 13) || decide (c.toNat = 11) || decide (c.toNat = 12)

/-- Python `str.strip()`: drop whitespace from both ends. -/
def pyStrip (s : String) : String :=
  String.mk (((s.data.dropWhile pyIsSpace).reverse.dropWhile pyIsSpace).reverse)

/-- Helper for `pySplitlines`: split at newline characters, accumulating the
current line reversed; a final empty segment (after a trailing newline, or
for the empty string) is not emitted, as in Python. -/
def splitlinesGo (cur : List Char) : List Char → List (List Char)
  | [] => if cur.isEmpty then [] else [cur.reverse]
  | c :: rest =>
    if c.toNat = 10 then cur.reverse :: splitlinesGo [] rest
    else splitlinesGo (c :: cur) rest

/-- Python `str.splitlines()` restricted to `"\n"` separators — the only
line separator these strings contain, since `merged_text` is built with
`"\n".join`. -/
def pySplitlines (s : String) : List String :=
  (splitlinesGo [] s.data).map String.mk

/-- The snippet computed in `build_sources_for_llm`:
`" ".join(text.strip().splitlines())[:400]`. -/
def snippet_of (text : String) : String :=
  String.mk ((String.intercalate " " (pySplitlines (pyStrip text))).data.take 400)

/-- The key of `sources_map`: `(doc["bank"], doc["document_name"])`. -/
def sourceKey (d : Record) : String × String := (d.bank, d.document_name)

/-- The dict value inserted for a record in `build_sources_for_llm`. -/
def mkSourceItem (d : Record) : SourceItem :=
  ⟨d.bank, d.document_name, snippet_of d.merged_text⟩

/-- The loop of `build_sources_for_llm`: `seen` is the key set of
`sources_map` so far; values come out in insertion order. -/
def build_sources_aux (seen : List (String × String)) :
    List Record → List SourceItem
  | [] => []
  | d :: ds =>
    if sourceKey d ∈ seen then build_sources_aux seen ds
    else mkSourceItem d :: build_sources_aux (sourceKey d :: seen) ds

/-- `chat_logic.build_sources_for_llm`: one compact source item per unique
`(bank, document_name)` pair, first occurrence wins. -/
def build_sources_for_llm (docs : List Record) : List SourceItem :=
  build_sources_aux [] docs

/-! Concrete fixtures used by witnesses and counterexamples: a shared corpus
with three contiguous chunks of one document, a one-chunk scoped corpus, a
two-chunk corpus, and registries whose shared corpus is stored lowercase
resp. capitalized. -/

/-- A shared corpus: document `"A"` chunked into three contiguous pieces. -/
def commonCorpus : Corpus :=
  ⟨"common", ["c0", "c1", "c2"], [⟨"A", 0⟩, ⟨"A", 1⟩, ⟨"A", 2⟩]⟩

/-- A scoped corpus named `"hdfc"`. -/
def hdfcCorpus : Corpus := ⟨"hdfc", ["h0"], [⟨"hd.pdf", 0⟩]⟩

/-- A registry whose shared corpus is stored under the lowercase name. -/
def registryLower : List Corpus := [hdfcCorpus, commonCorpus]

/-- The same shared data stored under the capitalized name `"Common"`. -/
def commonUpperCorpus : Corpus :=
  ⟨"Common", ["c0", "c1", "c2"], [⟨"A", 0⟩, ⟨"A", 1⟩, ⟨"A", 2⟩]⟩

/-- A registry differing from `registryLower` only in the letter case of the
stored shared-corpus name. -/
def registryMixed : List Corpus := [hdfcCorpus, commonUpperCorpus]

/-- A two-vector corpus (for the `k` larger than corpus size scenario). -/
def tinyCorpus : Corpus := ⟨"tiny", ["a", "b"], [⟨"T", 0⟩, ⟨"T", 1⟩]⟩

/-- A search oracle for the fixtures: every corpus reports one hit, its
chunk 0 at distance 1. -/
def nnOne : Corpus → Nat → List (ℚ × Int) := fun _ _ => [((1 : ℚ), (0 : Int))]

/-- A search oracle reporting a hit only for the `"hdfc"` corpus. -/
def nnHdfcOnly : Corpus → Nat → List (ℚ × Int) := fun c _ =>
  if c.name = "hdfc" then [((1 : ℚ), (0 : Int))] else []

/-- The `(bank, document_name)` key of an emitted source item. -/
def itemKey (it : SourceItem) : String × String := (it.bank, it.document_name)

/-- The snippet the spec sentence describes literally: the `merged_text`
with each newline flattened to a single space, truncated to at most 400
characters (no stripping).  Written from the spec's words, to be compared
with the code's `snippet_of`. -/
def claimSnippet (text : String) : String :=
  String.mk ((text.data.map fun c => if c.toNat = 10 then ' ' else c).take 400)

/-- A record whose merged text starts with a space (its raw chunk was cut at
a space), exposing the stripping step of `build_sources_for_llm`. -/
def spacedRecord : Record :=
  { score := 1
    bank := "hdfc"
    document_name := "d.pdf"
    chunk_id := 0
    raw_chunk := " x"
    merged_text := " x" }
/-! General lemmas about the stable descending insertion sort. -/

section SortLemmas

variable {α : Type} (key : α → ℚ)

theorem insertDesc_perm (a : α) (l : List α) :
    (insertDesc key a l).Perm (a :: l) := by
  induction l with
  | nil => simp [insertDesc]
  | cons b bs ih =>
    by_cases h : key b ≤ key a
    · simp [insertDesc, h]
    · simp only [insertDesc, if_neg h]
      exact (ih.cons b).trans (List.Perm.swap a b bs)

theorem mem_insertDesc {x a : α} {l : List α} :
    x ∈ insertDesc key a l ↔ x = a ∨ x ∈ l := by
  rw [(insertDesc_perm key a l).mem_iff, List.mem_cons]

theorem sortByDesc_perm (l : List α) : (sortByDesc key l).Perm l := by
  induction l with
  | nil => simp [sortByDesc]
  | cons a l ih =>
    exact (insertDesc_perm key a (sortByDesc key l)).trans (ih.cons a)

theorem mem_sortByDesc {x : α} {l : List α} :
    x ∈ sortByDesc key l ↔ x ∈ l :=
  (sortByDesc_perm key l).mem_iff

theorem pairwise_insertDesc (a : α) {l : List α}
    (h : l.Pairwise fun x y => key y ≤ key x) :
    (insertDesc key a l).Pairwise (fun x y => key y ≤ key x) := by
  induction l with
  | nil => simp [insertDesc]
  | cons b bs ih =>
    rcases List.pairwise_cons.mp h with ⟨hb, hbs⟩
    by_cases hc : key b ≤ key a
    · simp only [insertDesc, if_pos hc]
      refine List.pairwise_cons.mpr ⟨?_, h⟩
      intro x hx
      rcases List.mem_cons.mp hx with rfl | hx
      · exact hc
      · exact (hb x hx).trans hc
    · simp only [insertDesc, if_neg hc]
      refine List.pairwise_cons.mpr ⟨?_, ih hbs⟩
      intro x hx
      rcases (mem_insertDesc key).mp hx with rfl | hx
      · exact le_of_lt (lt_of_not_le hc)
      · exact hb x hx

theorem sortByDesc_pairwise (l : List α) :
    (sortByDesc key l).Pairwise (fun x y => key y ≤ key x) := by
  induction l with
  | nil => simp [sortByDesc]
  | cons a l ih => exact pairwise_insertDesc key a ih

end SortLemmas

theorem sortByScoreDesc_perm (rs : List Record) :
    (sortByScoreDesc rs).Perm rs :=
  sortByDesc_perm Record.score rs

theorem mem_sortByScoreDesc {r : Record} {rs : List Record} :
    r ∈ sortByScoreDesc rs ↔ r ∈ rs :=
  (sortByScoreDesc_perm rs).mem_iff

theorem sortByScoreDesc_pairwise (rs : List Record) :
    (sortByScoreDesc rs).Pairwise (fun a b => b.score ≤ a.score) :=
  sortByDesc_pairwise Record.score rs

/-! Lemmas about first-occurrence deduplication. -/

theorem mem_firstOccsAux {x : String} :
    ∀ {seen : List String} {l : List String},
      x ∈ firstOccsAux seen l ↔ x ∈ l ∧ x ∉ seen := by
  intro seen l
  induction l generalizing seen with
  | nil => simp [firstOccsAux]
  | cons y ys ih =>
    by_cases hy : y ∈ seen
    · simp only [firstOccsAux, if_pos hy, ih, List.mem_cons]
      constructor
      · rintro ⟨hmem, hns⟩
        exact ⟨Or.inr hmem, hns⟩
      · rintro ⟨hmem | hmem, hns⟩
        · exact absurd hy (hmem ▸ hns)
        · exact ⟨hmem, hns⟩
    · simp only [firstOccsAux, if_neg hy, List.mem_cons, ih]
      constructor
      · rintro (rfl | ⟨hmem, hns⟩)
        · exact ⟨Or.inl rfl, hy⟩
        · exact ⟨Or.inr hmem, fun hx => hns (Or.inr hx)⟩
      · rintro ⟨rfl | hmem, hns⟩
        · exact Or.inl rfl
        · by_cases hxy : x = y
          · exact Or.inl hxy
          · exact Or.inr ⟨hmem, fun hx => hx.elim hxy hns⟩

theorem nodup_firstOccsAux :
    ∀ (seen l : List String), (firstOccsAux seen l).Nodup := by
  intro seen l
  induction l generalizing seen with
  | nil => simp [firstOccsAux]
  | cons y ys ih =>
    by_cases hy : y ∈ seen
    · simpa [firstOccsAux, if_pos hy] using ih seen
    · simp only [firstOccsAux, if_neg hy]
      refine List.nodup_cons.mpr ⟨?_, ih (y :: seen)⟩
      intro hmem
      exact ((mem_firstOccsAux.mp hmem).2 (List.mem_cons_self y seen)).elim

theorem firstOccs_nodup (l : List String) : (firstOccs l).Nodup :=
  nodup_firstOccsAux [] l

theorem mem_firstOccs {x : String} {l : List String} :
    x ∈ firstOccs l ↔ x ∈ l := by
  simp [firstOccs, mem_firstOccsAux]

/-! Lemmas about per-corpus search and record provenance. -/

theorem search_single_corpus_eq_map (corpus : Corpus)
    (res : List (ℚ × Int)) :
    search_single_corpus corpus res =
      (res.filter fun p => decide (p.2 ≠ -1)).map fun p =>
        mkRecord corpus p.1 p.2 := by
  induction res with
  | nil => rfl
  | cons p ps ih =>
    by_cases h : p.2 = -1
    · simp only [search_single_corpus, List.filterMap_cons, if_pos h]
      rw [List.filter_cons_of_neg (by simp [h])]
      exact ih
    · simp only [search_single_corpus, List.filterMap_cons, if_neg h]
      rw [List.filter_cons_of_pos (by simp [h]), List.map_cons]
      exact congrArg _ ih

theorem mem_search_single_corpus {r : Record} {corpus : Corpus}
    {res : List (ℚ × Int)} :
    r ∈ search_single_corpus corpus res ↔
      ∃ p ∈ res, p.2 ≠ -1 ∧ r = mkRecord corpus p.1 p.2 := by
  rw [search_single_corpus_eq_map]
  simp only [List.mem_map, List.mem_filter, decide_eq_true_eq]
  constructor
  · rintro ⟨p, ⟨hmem, hne⟩, rfl⟩
    exact ⟨p, hmem, hne, rfl⟩
  · rintro ⟨p, hmem, hne, rfl⟩
    exact ⟨p, ⟨hmem, hne⟩, rfl⟩

theorem bank_of_mem_search {r : Record} {corpus : Corpus}
    {res : List (ℚ × Int)} (h : r ∈ search_single_corpus corpus res) :
    r.bank = corpus.name := by
  rcases mem_search_single_corpus.mp h with ⟨p, -, -, rfl⟩
  rfl

theorem mem_all_results {r : Record} {corpora : List Corpus}
    {nn : Corpus → Nat → List (ℚ × Int)} {bank : Option String}
    {top_k : Nat} :
    r ∈ all_results corpora nn bank top_k ↔
      ∃ c ∈ corpora_to_search corpora bank,
        r ∈ search_single_corpus c (nn c top_k) := by
  simp [all_results, List.mem_flatMap]

/-! Lemmas about corpus lookup and selection. -/

theorem lookup_common_name {corpora : List Corpus} {c : Corpus}
    (h : lookup_common corpora = some c) : c.name = "common" := by
  have := List.find?_some h
  simpa using this

theorem lookup_common_mem {corpora : List Corpus} {c : Corpus}
    (h : lookup_common corpora = some c) : c ∈ corpora :=
  List.mem_of_find?_eq_some h

theorem resolve_bank_some {corpora : List Corpus} {hint : String} {c : Corpus}
    (h : resolve_bank corpora hint = some c) :
    c ∈ corpora ∧ pyLower c.name = pyLower hint := by
  refine ⟨List.mem_of_find?_eq_some h, ?_⟩
  have := List.find?_some h
  simpa using this

theorem resolve_bank_eq_none {corpora : List Corpus} {hint : String}
    (h : ∀ c ∈ corpora, pyLower c.name ≠ pyLower hint) :
    resolve_bank corpora hint = none := by
  apply List.find?_eq_none.mpr
  intro c hc
  simpa using h c hc

/-! Lemmas about the fusion stage. -/

theorem mem_common_results {r : Record} {rs : List Record} :
    r ∈ common_results rs ↔ r ∈ rs ∧ pyLower r.bank = "common" := by
  simp [common_results]

theorem mem_other_results {r : Record} {rs : List Record} :
    r ∈ other_results rs ↔ r ∈ rs ∧ pyLower r.bank ≠ "common" := by
  simp [other_results]

theorem mem_bank_group {r : Record} {rs : List Record} {b : String} :
    r ∈ bank_group rs b ↔ r ∈ rs ∧ r.bank = b := by
  simp [bank_group]

theorem selected_banks_length_le (rs : List Record) :
    (selected_banks rs).length ≤ MAX_BANKS_WHEN_NO_BANK_SPECIFIED := by
  simp only [selected_banks, List.length_map, List.length_take]
  exact min_le_left _ _

theorem mem_assemble_unhinted {r : Record} {sorted : List Record}
    {top_k : Nat} (h : r ∈ assemble_unhinted sorted top_k) :
    r ∈ (common_results sorted).take top_k ∨
      ∃ b ∈ selected_banks (other_results sorted),
        r ∈ (bank_group (other_results sorted) b).take top_k := by
  rcases List.mem_append.mp h with h | h
  · exact Or.inl h
  · rcases List.mem_flatMap.mp h with ⟨b, hb, hr⟩
    exact Or.inr ⟨b, hb, hr⟩

theorem assemble_unhinted_sub {r : Record} {sorted : List Record}
    {top_k : Nat} (h : r ∈ assemble_unhinted sorted top_k) : r ∈ sorted := by
  rcases mem_assemble_unhinted h with h | ⟨b, -, h⟩
  · exact (mem_common_results.mp (List.mem_of_mem_take h)).1
  · exact (mem_other_results.mp
      ((mem_bank_group.mp (List.mem_of_mem_take h)).1)).1

/-- Any record returned by `retrieve` comes from the working set
`all_results`. -/
theorem retrieve_sub {r : Record} {corpora : List Corpus}
    {nn : Corpus → Nat → List (ℚ × Int)} {bank : Option String}
    {top_k_opt : Option Nat} (h : r ∈ retrieve corpora nn bank top_k_opt) :
    r ∈ all_results corpora nn bank (top_k_opt.getD TOP_K_PER_INDEX) := by
  unfold retrieve at h
  by_cases hb : is_hinted bank = true
  · rw [if_pos hb] at h
    exact mem_sortByScoreDesc.mp (List.mem_of_mem_take h)
  · rw [if_neg hb] at h
    exact mem_sortByScoreDesc.mp
      (assemble_unhinted_sub (mem_sortByScoreDesc.mp h))

/-- Case analysis of `merge_neighbors`: the merged text is always one of the
four newline-joined shapes, and a neighbor can only appear when its array
position exists. -/
theorem merge_neighbors_cases (corpus : Corpus) (i : Nat) :
    merge_neighbors corpus i = corpus.chunks.getD i "" ∨
    (1 ≤ i ∧ merge_neighbors corpus i =
        corpus.chunks.getD (i - 1) "" ++ "\n" ++ corpus.chunks.getD i "") ∨
    (i + 1 < corpus.chunks.length ∧ merge_neighbors corpus i =
        corpus.chunks.getD i "" ++ "\n" ++ corpus.chunks.getD (i + 1) "") ∨
    (1 ≤ i ∧ i + 1 < corpus.chunks.length ∧ merge_neighbors corpus i =
        corpus.chunks.getD (i - 1) "" ++ "\n" ++ corpus.chunks.getD i "" ++
          "\n" ++ corpus.chunks.getD (i + 1) "") := by
  by_cases h1 : 1 ≤ i
  · by_cases hp : prev_adjacent corpus i
    · by_cases h2 : i + 1 < corpus.chunks.length
      · by_cases hn : next_adjacent corpus i
        · refine Or.inr (Or.inr (Or.inr ⟨h1, h2, ?_⟩))
          simp only [merge_neighbors, if_pos h1, if_pos hp, if_pos h2,
            if_pos hn]
          simp [String.intercalate, String.intercalate.go]
        · refine Or.inr (Or.inl ⟨h1, ?_⟩)
          simp only [merge_neighbors, if_pos h1, if_pos hp, if_pos h2,
            if_neg hn]
          simp [String.intercalate, String.intercalate.go]
      · refine Or.inr (Or.inl ⟨h1, ?_⟩)
        simp only [merge_neighbors, if_pos h1, if_pos hp, if_neg h2]
        simp [String.intercalate, String.intercalate.go]
    · by_cases h2 : i + 1 < corpus.chunks.length
      · by_cases hn : next_adjacent corpus i
        · refine Or.inr (Or.inr (Or.inl ⟨h2, ?_⟩))
          simp only [merge_neighbors, if_pos h1, if_neg hp, if_pos h2,
            if_pos hn]
          simp [String.intercalate, String.intercalate.go]
        · refine Or.inl ?_
          simp only [merge_neighbors, if_pos h1, if_neg hp, if_pos h2,
            if_neg hn]
          simp [String.intercalate, String.intercalate.go]
      · refine Or.inl ?_
        simp only [merge_neighbors, if_pos h1, if_neg hp, if_neg h2]
        simp [String.intercalate, String.intercalate.go]
  · by_cases h2 : i + 1 < corpus.chunks.length
    · by_cases hn : next_adjacent corpus i
      · refine Or.inr (Or.inr (Or.inl ⟨h2, ?_⟩))
        simp only [merge_neighbors, if_neg h1, if_pos h2, if_pos hn]
        simp [String.intercalate, String.intercalate.go]
      · refine Or.inl ?_
        simp only [merge_neighbors, if_neg h1, if_pos h2, if_neg hn]
        simp [String.intercalate, String.intercalate.go]
    · refine Or.inl ?_
      simp only [merge_neighbors, if_neg h1, if_neg h2]
      simp [String.intercalate, String.intercalate.go]

/-- C2: at an interior array position `i` (both neighbors exist), the merged
text includes the preceding chunk's text before the current chunk's text if
and only if the metadata at `i - 1` has the same source document and its
sequence index is the current one minus 1, and symmetrically for `i + 1`;
parts are newline-joined in order preceding, current, following, and with no
qualifying neighbor the merged text equals the raw chunk text. -/
theorem c2_neighbor_merge (corpus : Corpus) (i : Nat) (h1 : 1 ≤ i)
    (h2 : i + 1 < corpus.chunks.length) :
    (prev_adjacent corpus i ∧ next_adjacent corpus i →
      merge_neighbors corpus i =
        corpus.chunks.getD (i - 1) "" ++ "\n" ++ corpus.chunks.getD i "" ++
          "\n" ++ corpus.chunks.getD (i + 1) "") ∧
    (prev_adjacent corpus i ∧ ¬next_adjacent corpus i →
      merge_neighbors corpus i =
        corpus.chunks.getD (i - 1) "" ++ "\n" ++ corpus.chunks.getD i "") ∧
    (¬prev_adjacent corpus i ∧ next_adjacent corpus i →
      merge_neighbors corpus i =
        corpus.chunks.getD i "" ++ "\n" ++ corpus.chunks.getD (i + 1) "") ∧
    (¬prev_adjacent corpus i ∧ ¬next_adjacent corpus i →
      merge_neighbors corpus i = corpus.chunks.getD i "") := by
  refine ⟨?_, ?_, ?_, ?_⟩
  · rintro ⟨hp, hn⟩
    simp only [merge_neighbors, if_pos h1, if_pos hp, if_pos h2, if_pos hn]
    simp [String.intercalate, String.intercalate.go]
  · rintro ⟨hp, hn⟩
    simp only [merge_neighbors, if_pos h1, if_pos hp, if_pos h2, if_neg hn]
    simp [String.intercalate, String.intercalate.go]
  · rintro ⟨hp, hn⟩
    simp only [merge_neighbors, if_pos h1, if_neg hp, if_pos h2, if_pos hn]
    simp [String.intercalate, String.intercalate.go]
  · rintro ⟨hp, hn⟩
    simp only [merge_neighbors, if_pos h1, if_neg hp, if_pos h2, if_neg hn]
    simp [String.intercalate, String.intercalate.go]

/-- Witness for C2, realizing the spec's concrete scenario: three chunks of
document `"A"` at sequence indexes 0, 1, 2 with the hit at position 1 merge
to chunk0 + newline + chunk1 + newline + chunk2. -/
theorem c2_neighbor_merge_witness :
    merge_neighbors commonCorpus 1 = "c0" ++ "\n" ++ "c1" ++ "\n" ++ "c2" := by
  have h :=
    (c2_neighbor_merge commonCorpus 1 (by decide) (by decide)).1
      ⟨by decide, by decide⟩
  exact h

/-- C10: for any valid array position, neighbor repair only consults the
adjacent array positions that exist — the merged text is one of exactly four
shapes (current alone, preceding+current, current+following,
preceding+current+following, newline-joined), the raw chunk text is always a
contiguous part of it, no shape with a preceding part occurs at position 0,
and no shape with a following part occurs at the last position. -/
theorem c10_merge_shapes (corpus : Corpus) (i : Nat)
    (h : i < corpus.chunks.length) :
    (merge_neighbors corpus i = corpus.chunks.getD i "" ∨
      merge_neighbors corpus i =
        corpus.chunks.getD (i - 1) "" ++ "\n" ++ corpus.chunks.getD i "" ∨
      merge_neighbors corpus i =
        corpus.chunks.getD i "" ++ "\n" ++ corpus.chunks.getD (i + 1) "" ∨
      merge_neighbors corpus i =
        corpus.chunks.getD (i - 1) "" ++ "\n" ++ corpus.chunks.getD i "" ++
          "\n" ++ corpus.chunks.getD (i + 1) "") ∧
    (∃ pre post : String,
      merge_neighbors corpus i = pre ++ corpus.chunks.getD i "" ++ post) ∧
    (i = 0 →
      merge_neighbors corpus i = corpus.chunks.getD i "" ∨
      merge_neighbors corpus i =
        corpus.chunks.getD i "" ++ "\n" ++ corpus.chunks.getD (i + 1) "") ∧
    (i + 1 = corpus.chunks.length →
      merge_neighbors corpus i = corpus.chunks.getD i "" ∨
      merge_neighbors corpus i =
        corpus.chunks.getD (i - 1) "" ++ "\n" ++ corpus.chunks.getD i "") := by
  have hc := merge_neighbors_cases corpus i
  refine ⟨?_, ?_, ?_, ?_⟩
  · rcases hc with h0 | ⟨-, h0⟩ | ⟨-, h0⟩ | ⟨-, -, h0⟩
    · exact Or.inl h0
    · exact Or.inr (Or.inl h0)
    · exact Or.inr (Or.inr (Or.inl h0))
    · exact Or.inr (Or.inr (Or.inr h0))
  · rcases hc with h0 | ⟨-, h0⟩ | ⟨-, h0⟩ | ⟨-, -, h0⟩
    · exact ⟨"", "", by simpa using h0⟩
    · exact ⟨corpus.chunks.getD (i - 1) "" ++ "\n", "", by simpa using h0⟩
    · refine ⟨"", "\n" ++ corpus.chunks.getD (i + 1) "", ?_⟩
      rw [h0]
      apply String.ext
      simp [String.data_append]
    · refine ⟨corpus.chunks.getD (i - 1) "" ++ "\n",
        "\n" ++ corpus.chunks.getD (i + 1) "", ?_⟩
      rw [h0]
      apply String.ext
      simp [String.data_append]
  · rintro rfl
    rcases hc with h0 | ⟨h1, -⟩ | ⟨-, h0⟩ | ⟨h1, -, -⟩
    · exact Or.inl h0
    · exact absurd h1 (by omega)
    · exact Or.inr h0
    · exact absurd h1 (by omega)
  · intro hlen
    rcases hc with h0 | ⟨-, h0⟩ | ⟨h2, -⟩ | ⟨-, h2, -⟩
    · exact Or.inl h0
    · exact Or.inr h0
    · exact absurd h2 (by omega)
    · exact absurd h2 (by omega)

/-- Witness for C10 at a concrete corpus and position. -/
theorem c10_merge_shapes_witness :
    merge_neighbors commonCorpus 0 = commonCorpus.chunks.getD 0 "" ∨
    merge_neighbors commonCorpus 0 =
      commonCorpus.chunks.getD 0 "" ++ "\n" ++ commonCorpus.chunks.getD 1 "" :=
  (c10_merge_shapes commonCorpus 0 (by decide)).2.2.1 rfl

/-- C5: a per-corpus search with budget `k` (the index returns `k` rows)
yields exactly one record per non-sentinel row — so at most `k` records, and
when the index reports `min k n` valid rows for an `n`-vector corpus (FAISS
behaviour for `k` exceeding the corpus size), exactly the `min k n`
available records are returned, with no error. -/
theorem c5_search_length (corpus : Corpus) (k : Nat) (res : List (ℚ × Int))
    (hlen : res.length = k) :
    (search_single_corpus corpus res).length =
      (res.filter fun p => decide (p.2 ≠ -1)).length ∧
    (search_single_corpus corpus res).length ≤ k ∧
    ((res.filter fun p => decide (p.2 ≠ -1)).length =
        min k corpus.chunks.length →
      (search_single_corpus corpus res).length =
        min k corpus.chunks.length) := by
  have hmap : (search_single_corpus corpus res).length =
      (res.filter fun p => decide (p.2 ≠ -1)).length := by
    rw [search_single_corpus_eq_map, List.length_map]
  refine ⟨hmap, ?_, fun hv => hmap.trans hv⟩
  rw [hmap]
  calc (res.filter fun p => decide (p.2 ≠ -1)).length
      ≤ res.length := List.length_filter_le _ _
    _ = k := hlen

/-- Witness for C5, realizing the spec scenario: `k = 5` against a 2-vector
corpus (three sentinel rows) returns exactly 2 records. -/
theorem c5_search_length_witness :
    (search_single_corpus tinyCorpus
        [((0 : ℚ), (0 : Int)), (1, 1), (0, -1), (0, -1), (0, -1)]).length =
      min 5 tinyCorpus.chunks.length ∧
    (search_single_corpus tinyCorpus
        [((0 : ℚ), (0 : Int)), (1, 1), (0, -1), (0, -1), (0, -1)]).length ≤
      5 := by
  have h := c5_search_length tinyCorpus 5
    [((0 : ℚ), (0 : Int)), (1, 1), (0, -1), (0, -1), (0, -1)] (by decide)
  exact ⟨h.2.2 (by decide), h.2.1⟩

/-- C6: every record of a per-corpus search carries the score
`1 / (1 + distance)` of its (non-sentinel) search row; all scores are
strictly positive when all distances are nonnegative; and the score is
strictly decreasing in the distance. -/
theorem c6_score (corpus : Corpus) (res : List (ℚ × Int)) :
    (∀ d : ℚ, recordScore d = 1 / (1 + d)) ∧
    (∀ r ∈ search_single_corpus corpus res,
      ∃ p ∈ res, p.2 ≠ -1 ∧ r.score = recordScore p.1) ∧
    ((∀ p ∈ res, 0 ≤ p.1) →
      ∀ r ∈ search_single_corpus corpus res, 0 < r.score) ∧
    (∀ d₁ d₂ : ℚ, 0 ≤ d₁ → d₁ < d₂ → recordScore d₂ < recordScore d₁) := by
  have hpos : ∀ d : ℚ, 0 ≤ d → 0 < recordScore d := by
    intro d hd
    have h1 : (0 : ℚ) < 1 + d := by linarith
    exact one_div_pos.mpr h1
  refine ⟨fun d => rfl, ?_, ?_, ?_⟩
  · intro r hr
    rcases mem_search_single_corpus.mp hr with ⟨p, hmem, hne, rfl⟩
    exact ⟨p, hmem, hne, rfl⟩
  · intro hnn r hr
    rcases mem_search_single_corpus.mp hr with ⟨p, hmem, hne, rfl⟩
    exact hpos p.1 (hnn p hmem)
  · intro d₁ d₂ h0 hlt
    have h1 : (0 : ℚ) < 1 + d₁ := by linarith
    have h2 : 1 + d₁ < 1 + d₂ := by linarith
    exact one_div_lt_one_div_of_lt h1 h2

/-- Witness for C6 at concrete inputs: score monotonicity at distances 0 and
1, and strict positivity for a concrete search result. -/
theorem c6_score_witness :
    recordScore 1 < recordScore 0 ∧
    0 < (mkRecord tinyCorpus 1 0).score := by
  have h := c6_score tinyCorpus [((1 : ℚ), (0 : Int))]
  refine ⟨h.2.2.2 0 1 le_rfl one_pos, ?_⟩
  refine h.2.2.1 (by simp) (mkRecord tinyCorpus 1 0) ?_
  have hev : search_single_corpus tinyCorpus [((1 : ℚ), (0 : Int))] =
      [mkRecord tinyCorpus 1 0] := rfl
  rw [hev]
  exact List.mem_singleton.mpr rfl

/-- C8: with zero corpora loaded (e.g. an empty storage root), `retrieve`
returns the empty list for every hint and every `k`, raising no error. -/
theorem c8_empty_registry (nn : Corpus → Nat → List (ℚ × Int))
    (bank : Option String) (top_k_opt : Option Nat) :
    retrieve [] nn bank top_k_opt = [] := by
  have hsel : corpora_to_search [] bank = [] := by
    unfold corpora_to_search
    by_cases hb : is_hinted bank = true
    · rw [if_pos hb]
      simp [lookup_common, resolve_bank]
    · rw [if_neg hb]
      simp [lookup_common]
  have hall : all_results [] nn bank (top_k_opt.getD TOP_K_PER_INDEX) = [] := by
    rw [all_results, hsel]
    rfl
  by_cases hb : is_hinted bank = true
  · simp only [retrieve, hall, if_pos hb]
    simp [sortByScoreDesc, sortByDesc]
  · simp only [retrieve, hall, if_neg hb]
    simp [sortByScoreDesc, sortByDesc, assemble_unhinted, common_results,
      other_results, selected_banks, bank_names, firstOccs, firstOccsAux,
      bank_group]

/-- With a non-empty hint, corpus selection is the resolved bank corpus
followed by the shared corpus (each when present). -/
theorem corpora_to_search_hinted {corpora : List Corpus} {hint : String}
    (hne : hint ≠ "") :
    corpora_to_search corpora (some hint) =
      (resolve_bank corpora hint).toList ++ (lookup_common corpora).toList := by
  unfold corpora_to_search
  have hb : is_hinted (some hint) = true := by simp [is_hinted, hne]
  rw [if_pos hb]
  rfl

/-- C3: when the routing hint resolves (case-insensitively) to a known
scoped corpus, exactly that corpus plus the shared corpus (when present) are
searched, and every returned record belongs to the hinted corpus or to the
shared corpus — never to another scoped corpus. -/
theorem c3_hinted_scope (corpora : List Corpus)
    (nn : Corpus → Nat → List (ℚ × Int)) (top_k_opt : Option Nat)
    (hint : String) (c : Corpus) (hne : hint ≠ "")
    (hres : resolve_bank corpora hint = some c)
    (hscoped : pyLower c.name ≠ "common") :
    corpora_to_search corpora (some hint) =
      c :: (lookup_common corpora).toList ∧
    ∀ r ∈ retrieve corpora nn (some hint) top_k_opt,
      r.bank = c.name ∨ r.bank = "common" := by
  have hsel : corpora_to_search corpora (some hint) =
      c :: (lookup_common corpora).toList := by
    rw [corpora_to_search_hinted hne, hres]
    rfl
  refine ⟨hsel, ?_⟩
  intro r hr
  rcases mem_all_results.mp (retrieve_sub hr) with ⟨c', hc', hrc⟩
  rw [hsel] at hc'
  rcases List.mem_cons.mp hc' with rfl | hc'
  · exact Or.inl (bank_of_mem_search hrc)
  · have hsome : lookup_common corpora = some c' :=
      Option.mem_toList.mp hc'
    exact Or.inr ((bank_of_mem_search hrc).trans (lookup_common_name hsome))

/-- Witness for C3: the mixed-case hint `"HDFC"` on a registry with scoped
corpus `"hdfc"` and shared corpus `"common"`. -/
theorem c3_hinted_scope_witness :
    corpora_to_search registryLower (some "HDFC") =
      [hdfcCorpus, commonCorpus] ∧
    ((mkRecord hdfcCorpus 1 0).bank = hdfcCorpus.name ∨
      (mkRecord hdfcCorpus 1 0).bank = "common") := by
  have h := c3_hinted_scope registryLower nnHdfcOnly none "HDFC" hdfcCorpus
    (by decide) rfl (by decide)
  refine ⟨h.1.trans rfl, h.2 (mkRecord hdfcCorpus 1 0) ?_⟩
  have hev : retrieve registryLower nnHdfcOnly (some "HDFC") none =
      [mkRecord hdfcCorpus 1 0] := rfl
  rw [hev]
  exact List.mem_singleton.mpr rfl

/-- C7: a non-empty routing hint that resolves to no known corpus degrades
to searching only the shared corpus, with no error: corpus selection is just
the shared corpus (when present) and every returned record is a
shared-corpus record. -/
theorem c7_unresolved_hint (corpora : List Corpus)
    (nn : Corpus → Nat → List (ℚ × Int)) (top_k_opt : Option Nat)
    (hint : String) (hne : hint ≠ "")
    (hnores : ∀ c ∈ corpora, pyLower c.name ≠ pyLower hint) :
    corpora_to_search corpora (some hint) = (lookup_common corpora).toList ∧
    ∀ r ∈ retrieve corpora nn (some hint) top_k_opt, r.bank = "common" := by
  have hsel : corpora_to_search corpora (some hint) =
      (lookup_common corpora).toList := by
    rw [corpora_to_search_hinted hne, resolve_bank_eq_none hnores]
    rfl
  refine ⟨hsel, ?_⟩
  intro r hr
  rcases mem_all_results.mp (retrieve_sub hr) with ⟨c', hc', hrc⟩
  rw [hsel] at hc'
  have hsome : lookup_common corpora = some c' := Option.mem_toList.mp hc'
  exact (bank_of_mem_search hrc).trans (lookup_common_name hsome)

/-- Witness for C7: the hint `"zzz"` matches no corpus of the registry, so
only the shared corpus is searched. -/
theorem c7_unresolved_hint_witness :
    corpora_to_search registryLower (some "zzz") = [commonCorpus] ∧
    (mkRecord commonCorpus 1 0).bank = "common" := by
  have h := c7_unresolved_hint registryLower nnOne none "zzz" (by decide)
    (by decide)
  refine ⟨h.1.trans rfl, h.2 (mkRecord commonCorpus 1 0) ?_⟩
  have hev : retrieve registryLower nnOne (some "zzz") none =
      [mkRecord commonCorpus 1 0] := rfl
  rw [hev]
  exact List.mem_singleton.mpr rfl

/-- Counterexample for C4: the two registries differ only in the letter case
of the stored shared-corpus name (`"common"` vs `"Common"`), yet hinted
corpus selection for the same hint differs — with `"Common"` the shared
corpus is not found (the lookup `self._corpora.get("common")` is an exact
key lookup, not a lowercase-normalized one) — and unhinted selection drops
the `"Common"` corpus entirely.  So behaviour does depend on the letter case
of stored corpus names. -/
theorem c4_counterexample :
    pyLower "Common" = "common" ∧
    (corpora_to_search registryLower (some "HDFC")).map Corpus.name =
      ["hdfc", "common"] ∧
    (corpora_to_search registryMixed (some "HDFC")).map Corpus.name =
      ["hdfc"] ∧
    (corpora_to_search registryLower none).map Corpus.name =
      ["common", "hdfc"] ∧
    (corpora_to_search registryMixed none).map Corpus.name = ["hdfc"] := by
  refine ⟨by decide, by decide, by decide, by decide, by decide⟩

/-- C4 amended: routing-hint matching is case-insensitive in both the hint
and the stored corpus names (`"HDFC"` resolves to the registered corpus
`"hdfc"`), but the shared corpus is identified by the exact key `"common"`
(stored names are assumed lowercase), so only the hint side is fully
case-independent. -/
theorem c4_case_insensitivity (corpora : List Corpus) (h₁ h₂ : String)
    (heq : pyLower h₁ = pyLower h₂) :
    resolve_bank corpora h₁ = resolve_bank corpora h₂ ∧
    resolve_bank registryLower "HDFC" = some hdfcCorpus ∧
    (∀ c : Corpus, lookup_common corpora = some c → c.name = "common") := by
  refine ⟨?_, rfl, fun c h => lookup_common_name h⟩
  unfold resolve_bank
  have hfun : (fun c : Corpus => decide (pyLower c.name = pyLower h₁)) =
      fun c : Corpus => decide (pyLower c.name = pyLower h₂) := by
    funext c
    rw [heq]
  rw [hfun]

/-- Witness for the amended C4: `"hdfc"` and `"HDFC"` resolve identically. -/
theorem c4_case_insensitivity_witness :
    resolve_bank registryLower "hdfc" = resolve_bank registryLower "HDFC" ∧
    resolve_bank registryLower "HDFC" = some hdfcCorpus :=
  ⟨(c4_case_insensitivity registryLower "hdfc" "HDFC" (by decide)).1,
    (c4_case_insensitivity registryLower "hdfc" "HDFC" (by decide)).2.1⟩

/-- C1: an unhinted `retrieve` returns, re-sorted by score descending, a
permutation of the assembly "top `k` shared records plus, for each of the at
most `MAX_BANKS_WHEN_NO_BANK_SPECIFIED` best-scoring scoped corpora, its top
`k` records"; every scoped record of the result comes from one of the
selected corpora, and in particular the result contains records from at
most `MAX_BANKS_WHEN_NO_BANK_SPECIFIED` distinct scoped corpus names. -/
theorem c1_unhinted_fusion (corpora : List Corpus)
    (nn : Corpus → Nat → List (ℚ × Int)) (top_k_opt : Option Nat) :
    (retrieve corpora nn none top_k_opt).Perm
      (assemble_unhinted
        (sortByScoreDesc
          (all_results corpora nn none (top_k_opt.getD TOP_K_PER_INDEX)))
        (top_k_opt.getD TOP_K_PER_INDEX)) ∧
    (retrieve corpora nn none top_k_opt).Pairwise
      (fun a b => b.score ≤ a.score) ∧
    (∀ r ∈ retrieve corpora nn none top_k_opt, pyLower r.bank ≠ "common" →
      r.bank ∈ selected_banks (other_results (sortByScoreDesc
        (all_results corpora nn none (top_k_opt.getD TOP_K_PER_INDEX))))) ∧
    (firstOccs ((other_results (retrieve corpora nn none top_k_opt)).map
        Record.bank)).length ≤ MAX_BANKS_WHEN_NO_BANK_SPECIFIED := by
  have hret : retrieve corpora nn none top_k_opt =
      sortByScoreDesc
        (assemble_unhinted
          (sortByScoreDesc
            (all_results corpora nn none (top_k_opt.getD TOP_K_PER_INDEX)))
          (top_k_opt.getD TOP_K_PER_INDEX)) := rfl
  have hperm := hret ▸ sortByScoreDesc_perm
    (assemble_unhinted
      (sortByScoreDesc
        (all_results corpora nn none (top_k_opt.getD TOP_K_PER_INDEX)))
      (top_k_opt.getD TOP_K_PER_INDEX))
  have hsel : ∀ r ∈ retrieve corpora nn none top_k_opt,
      pyLower r.bank ≠ "common" →
      r.bank ∈ selected_banks (other_results (sortByScoreDesc
        (all_results corpora nn none (top_k_opt.getD TOP_K_PER_INDEX)))) := by
    intro r hr hscoped
    have hmem := hperm.mem_iff.mp hr
    rcases mem_assemble_unhinted hmem with hcom | ⟨b, hbsel, hgrp⟩
    · exact absurd
        (mem_common_results.mp (List.mem_of_mem_take hcom)).2 hscoped
    · have hb : r.bank = b := (mem_bank_group.mp (List.mem_of_mem_take hgrp)).2
      exact hb ▸ hbsel
  refine ⟨hperm, hret ▸ sortByScoreDesc_pairwise _, hsel, ?_⟩
  set sel := selected_banks (other_results (sortByScoreDesc
    (all_results corpora nn none (top_k_opt.getD TOP_K_PER_INDEX)))) with hseldef
  set d := firstOccs ((other_results (retrieve corpora nn none top_k_opt)).map
    Record.bank) with hddef
  have hdnodup : d.Nodup := firstOccs_nodup _
  have hdsub : ∀ x ∈ d, x ∈ sel := by
    intro x hx
    have hx' := mem_firstOccs.mp hx
    rcases List.mem_map.mp hx' with ⟨r, hrmem, rfl⟩
    rcases mem_other_results.mp hrmem with ⟨hrret, hrscoped⟩
    exact hsel r hrret hrscoped
  calc d.length = d.toFinset.card := (List.toFinset_card_of_nodup hdnodup).symm
    _ ≤ sel.toFinset.card := by
        apply Finset.card_le_card
        intro x hx
        exact List.mem_toFinset.mpr (hdsub x (List.mem_toFinset.mp hx))
    _ ≤ sel.length := List.toFinset_card_le sel
    _ ≤ MAX_BANKS_WHEN_NO_BANK_SPECIFIED := selected_banks_length_le _

/-- Witness for C1 at a concrete registry and oracle. -/
theorem c1_unhinted_fusion_witness :
    (firstOccs ((other_results (retrieve registryLower nnOne none none)).map
        Record.bank)).length ≤ MAX_BANKS_WHEN_NO_BANK_SPECIFIED :=
  (c1_unhinted_fusion registryLower nnOne none).2.2.2

/-! Lemmas about `build_sources_aux`. -/

theorem build_sources_aux_congr :
    ∀ {seen₁ seen₂ : List (String × String)} (ds : List Record),
      (∀ x, x ∈ seen₁ ↔ x ∈ seen₂) →
      build_sources_aux seen₁ ds = build_sources_aux seen₂ ds := by
  intro seen₁ seen₂ ds
  induction ds generalizing seen₁ seen₂ with
  | nil => intro _; rfl
  | cons d ds ih =>
    intro h
    by_cases hd : sourceKey d ∈ seen₁
    · rw [build_sources_aux, build_sources_aux, if_pos hd,
        if_pos ((h _).mp hd)]
      exact ih h
    · rw [build_sources_aux, build_sources_aux, if_neg hd,
        if_neg (fun hx => hd ((h _).mpr hx))]
      congr 1
      refine ih ?_
      intro x
      simp only [List.mem_cons]
      rw [h x]

theorem build_sources_aux_cons_seen (k : String × String) :
    ∀ (ds : List Record) (seen : List (String × String)),
      build_sources_aux (k :: seen) ds =
        build_sources_aux seen
          (ds.filter fun e => decide (sourceKey e ≠ k)) := by
  intro ds
  induction ds with
  | nil => intro seen; rfl
  | cons d ds ih =>
    intro seen
    by_cases hk : sourceKey d = k
    · rw [build_sources_aux,
        if_pos (List.mem_cons.mpr (Or.inl hk)),
        List.filter_cons_of_neg (by simp [hk])]
      exact ih seen
    · by_cases hs : sourceKey d ∈ seen
      · rw [build_sources_aux, if_pos (List.mem_cons_of_mem _ hs),
          List.filter_cons_of_pos (by simp [hk]), build_sources_aux,
          if_pos hs]
        exact ih seen
      · have hnotin : sourceKey d ∉ k :: seen := by
          intro hx
          rcases List.mem_cons.mp hx with h | h
          · exact hk h
          · exact hs h
        rw [build_sources_aux, if_neg hnotin,
          List.filter_cons_of_pos (by simp [hk]), build_sources_aux,
          if_neg hs]
        congr 1
        rw [build_sources_aux_congr ds
          (show ∀ x, x ∈ sourceKey d :: k :: seen ↔
              x ∈ k :: sourceKey d :: seen by
            intro x
            simp only [List.mem_cons]
            tauto)]
        exact ih (sourceKey d :: seen)

theorem mem_build_sources_aux {it : SourceItem} :
    ∀ {seen : List (String × String)} {ds : List Record},
      it ∈ build_sources_aux seen ds →
      itemKey it ∉ seen ∧ ∃ d ∈ ds, it = mkSourceItem d := by
  intro seen ds
  induction ds generalizing seen with
  | nil => intro h; exact absurd h (List.not_mem_nil it)
  | cons d ds ih =>
    intro h
    by_cases hd : sourceKey d ∈ seen
    · rw [build_sources_aux, if_pos hd] at h
      rcases ih h with ⟨hk, e, he, rfl⟩
      exact ⟨hk, e, List.mem_cons_of_mem d he, rfl⟩
    · rw [build_sources_aux, if_neg hd] at h
      rcases List.mem_cons.mp h with rfl | h
      · exact ⟨hd, d, List.mem_cons_self d ds, rfl⟩
      · rcases ih h with ⟨hk, e, he, rfl⟩
        refine ⟨fun hx => hk (List.mem_cons_of_mem _ hx),
          e, List.mem_cons_of_mem d he, rfl⟩

theorem nodup_keys_build_sources_aux :
    ∀ (ds : List Record) (seen : List (String × String)),
      ((build_sources_aux seen ds).map itemKey).Nodup := by
  intro ds
  induction ds with
  | nil => intro seen; simp [build_sources_aux]
  | cons d ds ih =>
    intro seen
    by_cases hd : sourceKey d ∈ seen
    · rw [build_sources_aux, if_pos hd]
      exact ih seen
    · rw [build_sources_aux, if_neg hd, List.map_cons]
      refine List.nodup_cons.mpr ⟨?_, ih (sourceKey d :: seen)⟩
      intro hmem
      rcases List.mem_map.mp hmem with ⟨it, hit, hkey⟩
      have := (mem_build_sources_aux hit).1
      rw [hkey] at this
      exact this (List.mem_cons_self _ _)

/-- Counterexample for C9: for a record whose `merged_text` is `" x"`, the
emitted snippet is `"x"` — the code strips leading/trailing whitespace
before flattening — while the claim's formula (newlines flattened, truncated
to 400, no stripping) yields `" x"`. -/
theorem c9_counterexample :
    (build_sources_for_llm [spacedRecord]).map SourceItem.snippet = ["x"] ∧
    claimSnippet spacedRecord.merged_text = " x" ∧
    ("x" : String) ≠ " x" := by
  refine ⟨by decide, by decide, by decide⟩

/-- C9 amended: the sources projector emits exactly one entry per unique
`(corpus_name, source_document)` pair, the first occurrence winning (later
records with an already-seen key are dropped), and its snippet is the
record's `merged_text` first stripped of leading/trailing whitespace, then
with newlines flattened to single spaces, then truncated to at most 400
characters. -/
theorem c9_sources_projector (docs : List Record) :
    build_sources_for_llm [] = [] ∧
    (∀ (d : Record) (ds : List Record),
      build_sources_for_llm (d :: ds) =
        mkSourceItem d ::
          build_sources_for_llm
            (ds.filter fun e => decide (sourceKey e ≠ sourceKey d))) ∧
    ((build_sources_for_llm docs).map itemKey).Nodup ∧
    (∀ d : Record, (mkSourceItem d).snippet =
      String.mk ((String.intercalate " "
        (pySplitlines (pyStrip d.merged_text))).data.take 400)) ∧
    (∀ it ∈ build_sources_for_llm docs, it.snippet.length ≤ 400) := by
  refine ⟨rfl, ?_, nodup_keys_build_sources_aux docs [], fun d => rfl, ?_⟩
  · intro d ds
    unfold build_sources_for_llm
    rw [build_sources_aux, if_neg (List.not_mem_nil (sourceKey d))]
    congr 1
    exact build_sources_aux_cons_seen (sourceKey d) ds []
  · intro it hit
    rcases (mem_build_sources_aux hit).2 with ⟨d, -, rfl⟩
    show (mkSourceItem d).snippet.length ≤ 400
    have hlen : (mkSourceItem d).snippet.length =
        ((String.intercalate " "
          (pySplitlines (pyStrip d.merged_text))).data.take 400).length := rfl
    rw [hlen]
    calc ((String.intercalate " "
          (pySplitlines (pyStrip d.merged_text))).data.take 400).length
        ≤ 400 := List.length_take_le 400 _

/-- Witness for the amended C9 at a concrete record list. -/
theorem c9_sources_projector_witness :
    build_sources_for_llm [spacedRecord] = [mkSourceItem spacedRecord] ∧
    (mkSourceItem spacedRecord).snippet.length ≤ 400 := by
  have h := c9_sources_projector [spacedRecord]
  refine ⟨?_, ?_⟩
  · have h2 := h.2.1 spacedRecord []
    simpa using h2
  · refine h.2.2.2.2 (mkSourceItem spacedRecord) ?_
    have hev : build_sources_for_llm [spacedRecord] =
        [mkSourceItem spacedRecord] := rfl
    rw [hev]
    exact List.mem_singleton.mpr rfl
